import Mathlib

/-!
Verification of the nearest-pair finder of `src/demo.py`.

The script compares Histogram-of-Oriented-Gradients feature vectors of images
and returns the pair at minimum Euclidean distance.  The feature vectors are
modelled as `List ℚ` (exact rationals standing for the floating-point values),
and the Euclidean distance as the real square root of the rational sum of
squared differences.  The external distance routine
(`scipy.spatial.distance.euclidean`) is an ordinary Euclidean distance that
rejects vectors of different lengths; it is modelled as an `Except`-valued
function, `.error` standing for the raised exception.  The enumeration
`itertools.combinations(range(n), 2)` is modelled by `pairList`, which lists
the index pairs `(i, j)` with `i < j < n` in the same lexicographic order.
The Python value `float(inf)` that initialises `min_similarity` is modelled
by `⊤ : WithTop ℝ`, and the initially absent `most_similar_pair` by
`none : Option (ℕ × ℕ)`.
-/

/-- Sum of squared differences of two feature vectors, the quantity under the
square root in the Euclidean distance (`sqrt(sum((a_k - b_k)^2))`). -/
def sqDist (u v : List ℚ) : ℚ :=
  (List.zipWith (fun x y => (x - y) ^ 2) u v).sum

/-- Euclidean distance between two equal-length feature vectors, the value
computed by `scipy.spatial.distance.euclidean` on the happy path. -/
noncomputable def euclidean (u v : List ℚ) : ℝ :=
  Real.sqrt ((sqDist u v : ℚ) : ℝ)

/-- `calculate_similarity` of `src/demo.py` (lines 45-55): delegates to
`scipy.spatial.distance.euclidean`, which returns the Euclidean distance for
equal-length vectors and raises a dimensionality error otherwise; the raised
exception is modelled as `.error`. -/
noncomputable def calculate_similarity (u v : List ℚ) : Except String ℝ :=
  if u.length = v.length then .ok (euclidean u v)
  else .error "DimensionalityMismatch"

/-- `itertools.combinations(range n, 2)` (line 91 of `src/demo.py`): all index
pairs `(i, j)` with `i < j < n`, in lexicographic order. -/
def pairList (n : ℕ) : List (ℕ × ℕ) :=
  (List.range n).flatMap fun i => (List.range' (i + 1) (n - (i + 1))).map fun j => (i, j)

/-- One iteration of the loop at lines 91-95 of `src/demo.py`: compute the
similarity of the current index pair and update the running minimum and best
pair when the new similarity is strictly smaller. -/
noncomputable def similarityStep (dist : ℕ → ℕ → Except String ℝ)
    (acc : WithTop ℝ × Option (ℕ × ℕ)) (p : ℕ × ℕ) :
    Except String (WithTop ℝ × Option (ℕ × ℕ)) := do
  let s ← dist p.1 p.2
  pure (if (s : WithTop ℝ) < acc.1 then ((s : WithTop ℝ), some p) else acc)

/-- The whole loop of lines 88-95 of `src/demo.py`, starting from
`min_similarity = inf` (`⊤`) and `most_similar_pair = None`. -/
noncomputable def findWithM (dist : ℕ → ℕ → Except String ℝ) (n : ℕ) :
    Except String (WithTop ℝ × Option (ℕ × ℕ)) :=
  (pairList n).foldlM (similarityStep dist) (⊤, none)

/-- `find_most_similar_images` of `src/demo.py` from line 83 on, taking the
already-extracted feature vectors (`hog_data[i][1]`) as input.  `.ok none`
models the `return None` of the insufficient-items branch (lines 84-86);
`.ok (some ((min_similarity, most_similar_pair), hog_data))` models the normal
`return min_similarity, most_similar_pair, hog_data` of line 98; `.error`
models an exception escaping the loop. -/
noncomputable def find_most_similar_images (data : List (List ℚ)) :
    Except String (Option ((WithTop ℝ × Option (ℕ × ℕ)) × List (List ℚ))) :=
  if data.length < 2 then .ok none
  else
    (findWithM (fun i j => calculate_similarity (data.getD i []) (data.getD j []))
        data.length).map fun acc => some (acc, data)

/-- The loop of lines 91-95 with the local `hog_data` threaded through the
iteration state: each iteration reads the vectors from the state and writes
only the accumulator, leaving the data component untouched. -/
noncomputable def similarityStepSt
    (st : (WithTop ℝ × Option (ℕ × ℕ)) × List (List ℚ)) (p : ℕ × ℕ) :
    Except String ((WithTop ℝ × Option (ℕ × ℕ)) × List (List ℚ)) := do
  let s ← calculate_similarity (st.2.getD p.1 []) (st.2.getD p.2 [])
  pure (if (s : WithTop ℝ) < st.1.1 then (((s : WithTop ℝ), some p), st.2) else st)

/-- The finder loop run on the full local state (accumulator plus the
`hog_data` list), used to state that the input data is left unchanged. -/
noncomputable def findLoopSt (data : List (List ℚ)) :
    Except String ((WithTop ℝ × Option (ℕ × ℕ)) × List (List ℚ)) :=
  (pairList data.length).foldlM similarityStepSt ((⊤, none), data)

/-- Pure distance of the index pair `p` inside a data list, used to reason
about the loop once all similarity evaluations are known to succeed. -/
noncomputable def dEuclid (data : List (List ℚ)) (p : ℕ × ℕ) : ℝ :=
  euclidean (data.getD p.1 []) (data.getD p.2 [])

/-- Pure version of `similarityStep`, for a loop in which no evaluation
fails. -/
noncomputable def minStep (d : ℕ × ℕ → ℝ) (acc : WithTop ℝ × Option (ℕ × ℕ))
    (p : ℕ × ℕ) : WithTop ℝ × Option (ℕ × ℕ) :=
  if (d p : WithTop ℝ) < acc.1 then ((d p : WithTop ℝ), some p) else acc

/-- Strict lexicographic order on index pairs, the order in which
`itertools.combinations` emits them. -/
def pairLexLt (p q : ℕ × ℕ) : Prop :=
  p.1 < q.1 ∨ (p.1 = q.1 ∧ p.2 < q.2)

section PairListLemmas

theorem pairList_mem (n : ℕ) (p : ℕ × ℕ) : p ∈ pairList n ↔ p.1 < p.2 ∧ p.2 < n := by
  obtain ⟨a, b⟩ := p
  simp only [pairList, List.mem_flatMap, List.mem_map, List.mem_range, List.mem_range'_1,
    Prod.mk.injEq]
  constructor
  · rintro ⟨i, hi, j, ⟨hj1, hj2⟩, rfl, rfl⟩
    omega
  · rintro ⟨h1, h2⟩
    exact ⟨a, by omega, b, by omega, rfl, rfl⟩

theorem pairList_pairwise (n : ℕ) : (pairList n).Pairwise pairLexLt := by
  unfold pairList
  rw [List.pairwise_flatMap]
  constructor
  · intro a _
    rw [List.pairwise_map]
    exact (List.pairwise_lt_range' (a + 1) (n - (a + 1))).imp fun h => Or.inr ⟨rfl, h⟩
  · exact (List.pairwise_lt_range n).imp fun h => by
      rintro ⟨x1, x2⟩ hx ⟨y1, y2⟩ hy
      simp only [List.mem_map] at hx hy
      obtain ⟨j, -, hj⟩ := hx
      obtain ⟨k, -, hk⟩ := hy
      cases hj
      cases hk
      exact Or.inl h

theorem pairList_nodup (n : ℕ) : (pairList n).Nodup :=
  (pairList_pairwise n).imp fun h => by
    rintro rfl
    rcases h with h | ⟨-, h⟩ <;> omega

end PairListLemmas

section FoldLemmas

theorem except_bind_ok {α β : Type} (v : α) (k : α → Except String β) :
    (Except.ok v : Except String α) >>= k = k v := rfl

theorem except_bind_error {α β : Type} (msg : String) (k : α → Except String β) :
    (Except.error msg : Except String α) >>= k = .error msg := rfl

theorem similarityStep_ok (dist : ℕ → ℕ → Except String ℝ)
    (acc : WithTop ℝ × Option (ℕ × ℕ)) (p : ℕ × ℕ) (s : ℝ)
    (h : dist p.1 p.2 = .ok s) :
    similarityStep dist acc p =
      .ok (if (s : WithTop ℝ) < acc.1 then ((s : WithTop ℝ), some p) else acc) := by
  unfold similarityStep
  rw [h]
  rfl

theorem similarityStep_error (dist : ℕ → ℕ → Except String ℝ)
    (acc : WithTop ℝ × Option (ℕ × ℕ)) (p : ℕ × ℕ) (msg : String)
    (h : dist p.1 p.2 = .error msg) :
    similarityStep dist acc p = .error msg := by
  unfold similarityStep
  rw [h]
  rfl

/-- When every evaluated pair succeeds with value `d p`, the monadic loop is
the pure minimum-tracking fold. -/
theorem foldlM_eq_foldl_of_ok (dist : ℕ → ℕ → Except String ℝ) (d : ℕ × ℕ → ℝ)
    (l : List (ℕ × ℕ)) (hok : ∀ p ∈ l, dist p.1 p.2 = .ok (d p)) :
    ∀ acc, l.foldlM (similarityStep dist) acc = .ok (l.foldl (minStep d) acc) := by
  induction l with
  | nil => intro acc; rfl
  | cons a l ih =>
    intro acc
    rw [List.foldlM_cons, List.foldl_cons,
      similarityStep_ok dist acc a (d a) (hok a (List.mem_cons_self a l)), except_bind_ok]
    exact ih (fun p hp => hok p (List.mem_cons_of_mem a hp)) (minStep d acc a)

/-- If some evaluated pair fails, the monadic loop fails. -/
theorem foldlM_error_of_error (dist : ℕ → ℕ → Except String ℝ)
    (l : List (ℕ × ℕ)) (herr : ∃ p ∈ l, ∃ msg, dist p.1 p.2 = .error msg) :
    ∀ acc, ∃ msg, l.foldlM (similarityStep dist) acc = .error msg := by
  induction l with
  | nil => rcases herr with ⟨p, hp, -⟩; exact absurd hp (List.not_mem_nil p)
  | cons a l ih =>
    intro acc
    rw [List.foldlM_cons]
    cases hda : dist a.1 a.2 with
    | error msg =>
      exact ⟨msg, by rw [similarityStep_error dist acc a msg hda, except_bind_error]⟩
    | ok s =>
      have herr2 : ∃ p ∈ l, ∃ msg, dist p.1 p.2 = .error msg := by
        rcases herr with ⟨p, hp, msg, hmsg⟩
        rcases List.mem_cons.mp hp with rfl | hp2
        · rw [hda] at hmsg; cases hmsg
        · exact ⟨p, hp2, msg, hmsg⟩
      obtain ⟨msg, hmsg⟩ := ih herr2
        (if (s : WithTop ℝ) < acc.1 then ((s : WithTop ℝ), some a) else acc)
      exact ⟨msg, by rw [similarityStep_ok dist acc a s hda, except_bind_ok]; exact hmsg⟩

/-- Full characterisation of the pure minimum-tracking fold started at
`(⊤, none)`: either the list is empty, or the result names a pair `p` of the
list attaining its distance, every pair listed before `p` is strictly farther,
and every pair listed after `p` is no closer. -/
theorem foldl_minStep_char (d : ℕ × ℕ → ℝ) (l : List (ℕ × ℕ)) :
    (l = [] ∧ l.foldl (minStep d) (⊤, none) = (⊤, none)) ∨
    ∃ p l₁ l₂, l.foldl (minStep d) (⊤, none) = ((d p : WithTop ℝ), some p) ∧
      l = l₁ ++ p :: l₂ ∧ (∀ q ∈ l₁, d p < d q) ∧ (∀ q ∈ l₂, d p ≤ d q) := by
  induction l using List.reverseRecOn with
  | nil => exact Or.inl ⟨rfl, rfl⟩
  | append_singleton l x ih =>
    right
    rw [List.foldl_append, List.foldl_cons, List.foldl_nil]
    rcases ih with ⟨rfl, hres⟩ | ⟨p, l₁, l₂, hres, hsplit, hbefore, hafter⟩
    · refine ⟨x, [], [], ?_, by simp, by simp, by simp⟩
      rw [List.foldl_nil, minStep, if_pos (WithTop.coe_lt_top (d x))]
    · rw [hres]
      by_cases hlt : d x < d p
      · refine ⟨x, l, [], ?_, rfl, ?_, by simp⟩
        · rw [minStep, if_pos (WithTop.coe_lt_coe.mpr hlt)]
        · intro q hq
          rw [hsplit] at hq
          rcases List.mem_append.mp hq with hq1 | hq2
          · exact hlt.trans (hbefore q hq1)
          · rcases List.mem_cons.mp hq2 with rfl | hq3
            · exact hlt
            · exact hlt.trans_le (hafter q hq3)
      · refine ⟨p, l₁, l₂ ++ [x], ?_, by rw [hsplit]; simp, hbefore, ?_⟩
        · rw [minStep, if_neg (fun hc => hlt (WithTop.coe_lt_coe.mp hc))]
        · intro q hq
          rcases List.mem_append.mp hq with hq1 | hq2
          · exact hafter q hq1
          · rcases List.mem_cons.mp hq2 with rfl | hq3
            · exact not_lt.mp hlt
            · exact absurd hq3 (List.not_mem_nil q)

/-- The pair component of the accumulator after the monadic loop is its
initial value or one of the listed pairs. -/
theorem foldlM_pair_mem (dist : ℕ → ℕ → Except String ℝ) (l : List (ℕ × ℕ)) :
    ∀ acc0 acc, l.foldlM (similarityStep dist) acc0 = .ok acc →
      acc.2 = acc0.2 ∨ ∃ p ∈ l, acc.2 = some p := by
  induction l with
  | nil =>
    intro acc0 acc h
    rw [List.foldlM_nil] at h
    cases h
    exact Or.inl rfl
  | cons a l ih =>
    intro acc0 acc h
    rw [List.foldlM_cons] at h
    cases hda : dist a.1 a.2 with
    | error msg =>
      rw [similarityStep_error dist acc0 a msg hda, except_bind_error] at h
      cases h
    | ok s =>
      rw [similarityStep_ok dist acc0 a s hda, except_bind_ok] at h
      rcases ih _ _ h with hsame | ⟨p, hp, hps⟩
      · by_cases hc : (s : WithTop ℝ) < acc0.1
        · rw [if_pos hc] at hsame
          exact Or.inr ⟨a, List.mem_cons_self a l, hsame⟩
        · rw [if_neg hc] at hsame
          exact Or.inl hsame
      · exact Or.inr ⟨p, List.mem_cons_of_mem a hp, hps⟩

end FoldLemmas

section FindCharacterisation

theorem getD_mem_of_lt (l : List (List ℚ)) (i : ℕ) (h : i < l.length) :
    l.getD i [] ∈ l := by
  rw [List.getD_eq_getElem l [] h]
  exact List.getElem_mem h

/-- Under the equal-dimensionality precondition every pair evaluation
succeeds, returning the Euclidean distance of the two vectors. -/
theorem calc_ok_of_dims (data : List (List ℚ))
    (hdim : ∀ u ∈ data, ∀ v ∈ data, u.length = v.length)
    (p : ℕ × ℕ) (hp : p ∈ pairList data.length) :
    calculate_similarity (data.getD p.1 []) (data.getD p.2 []) = .ok (dEuclid data p) := by
  obtain ⟨h1, h2⟩ := (pairList_mem data.length p).mp hp
  have hlen : (data.getD p.1 []).length = (data.getD p.2 []).length :=
    hdim _ (getD_mem_of_lt data p.1 (h1.trans h2)) _ (getD_mem_of_lt data p.2 h2)
  rw [calculate_similarity, if_pos hlen]
  rfl

/-- Under the preconditions of the normal path the finder is the pure
minimum-tracking fold over the lexicographic pair list. -/
theorem find_eq_foldl (data : List (List ℚ)) (h2 : 2 ≤ data.length)
    (hdim : ∀ u ∈ data, ∀ v ∈ data, u.length = v.length) :
    find_most_similar_images data =
      .ok (some ((pairList data.length).foldl (minStep (dEuclid data)) (⊤, none), data)) := by
  rw [find_most_similar_images, if_neg (by omega), findWithM,
    foldlM_eq_foldl_of_ok _ (dEuclid data) _ (fun p hp => calc_ok_of_dims data hdim p hp)]
  rfl

/-- The central characterisation: with at least two equal-dimensionality
vectors the finder returns a pair of the enumeration attaining its own
distance, with every earlier pair strictly farther and every later pair no
closer. -/
theorem find_char (data : List (List ℚ)) (h2 : 2 ≤ data.length)
    (hdim : ∀ u ∈ data, ∀ v ∈ data, u.length = v.length) :
    ∃ (p : ℕ × ℕ) (l₁ l₂ : List (ℕ × ℕ)),
      find_most_similar_images data = .ok (some (((dEuclid data p : ℝ), some p), data)) ∧
      pairList data.length = l₁ ++ p :: l₂ ∧
      (∀ q ∈ l₁, dEuclid data p < dEuclid data q) ∧
      (∀ q ∈ l₂, dEuclid data p ≤ dEuclid data q) := by
  rcases foldl_minStep_char (dEuclid data) (pairList data.length) with ⟨hnil, -⟩ |
    ⟨p, l₁, l₂, hres, hsplit, hbefore, hafter⟩
  · exfalso
    have : (0, 1) ∈ pairList data.length := (pairList_mem data.length (0, 1)).mpr (by omega)
    rw [hnil] at this
    exact List.not_mem_nil _ this
  · exact ⟨p, l₁, l₂, by rw [find_eq_foldl data h2 hdim, hres], hsplit, hbefore, hafter⟩

end FindCharacterisation

/-- C1: for every collection of at least two feature vectors of equal
dimensionality, `find_most_similar_images` returns a pair of item indices
together with a minimum distance; the distance is attained at the returned
pair and is a lower bound on the Euclidean distance of every unordered pair
of distinct items, and the enumeration underlying the search lists each
unordered pair `(i, j)` with `i < j < N` exactly once (it is duplicate-free
and contains exactly those pairs). -/
theorem find_most_similar_images_min_correct (data : List (List ℚ))
    (h2 : 2 ≤ data.length)
    (hdim : ∀ u ∈ data, ∀ v ∈ data, u.length = v.length) :
    ∃ (i j : ℕ) (m : ℝ),
      find_most_similar_images data = .ok (some (((m : WithTop ℝ), some (i, j)), data)) ∧
      i < j ∧ j < data.length ∧
      m = euclidean (data.getD i []) (data.getD j []) ∧
      (∀ a b : ℕ, a < b → b < data.length →
        m ≤ euclidean (data.getD a []) (data.getD b [])) ∧
      (pairList data.length).Nodup ∧
      (∀ q : ℕ × ℕ, q ∈ pairList data.length ↔ q.1 < q.2 ∧ q.2 < data.length) := by
  obtain ⟨p, l₁, l₂, hfind, hsplit, hbefore, hafter⟩ := find_char data h2 hdim
  have hpmem : p ∈ pairList data.length := by
    rw [hsplit]
    exact List.mem_append_right l₁ (List.mem_cons_self p l₂)
  obtain ⟨hij, hjn⟩ := (pairList_mem data.length p).mp hpmem
  refine ⟨p.1, p.2, dEuclid data p, by rw [hfind], hij, hjn, rfl, ?_,
    pairList_nodup _, fun q => pairList_mem _ q⟩
  intro a b hab hbn
  show dEuclid data p ≤ dEuclid data (a, b)
  have hqmem : (a, b) ∈ pairList data.length := (pairList_mem _ (a, b)).mpr ⟨hab, hbn⟩
  rw [hsplit] at hqmem
  rcases List.mem_append.mp hqmem with hq1 | hq2
  · exact (hbefore _ hq1).le
  · rcases List.mem_cons.mp hq2 with heq | hq3
    · rw [heq]
    · exact hafter _ hq3

theorem find_most_similar_images_min_correct_witness :
    2 ≤ ([[0], [1]] : List (List ℚ)).length ∧
    (∀ u ∈ ([[0], [1]] : List (List ℚ)), ∀ v ∈ ([[0], [1]] : List (List ℚ)),
      u.length = v.length) ∧
    ∃ (i j : ℕ) (m : ℝ),
      find_most_similar_images [[0], [1]] =
        .ok (some (((m : WithTop ℝ), some (i, j)), [[0], [1]])) ∧
      i < j ∧ j < ([[0], [1]] : List (List ℚ)).length ∧
      m = euclidean (([[0], [1]] : List (List ℚ)).getD i [])
        (([[0], [1]] : List (List ℚ)).getD j []) ∧
      (∀ a b : ℕ, a < b → b < ([[0], [1]] : List (List ℚ)).length →
        m ≤ euclidean (([[0], [1]] : List (List ℚ)).getD a [])
          (([[0], [1]] : List (List ℚ)).getD b [])) ∧
      (pairList ([[0], [1]] : List (List ℚ)).length).Nodup ∧
      (∀ q : ℕ × ℕ, q ∈ pairList ([[0], [1]] : List (List ℚ)).length ↔
        q.1 < q.2 ∧ q.2 < ([[0], [1]] : List (List ℚ)).length) :=
  ⟨by decide, by decide, find_most_similar_images_min_correct [[0], [1]] (by decide) (by decide)⟩

/-- C2: with fewer than two valid items the finder reports the explicit
no-result outcome `.ok none` (the `return None` of lines 84-86), never a pair
and never an exception. -/
theorem find_insufficient_items (data : List (List ℚ)) (h : data.length < 2) :
    find_most_similar_images data = .ok none := by
  rw [find_most_similar_images, if_pos h]

theorem find_insufficient_items_witness :
    ([[(1 : ℚ), 2, 3]] : List (List ℚ)).length < 2 ∧
      find_most_similar_images [[(1 : ℚ), 2, 3]] = .ok none :=
  ⟨by decide, find_insufficient_items [[(1 : ℚ), 2, 3]] (by decide)⟩

/-- C3: when several pairs attain the minimum distance the finder returns the
one that comes first in lexicographic order of index pairs `(i, j)` with
`i < j`: any other pair attaining the returned distance is lexicographically
after the returned pair. -/
theorem find_tiebreak_first_lex (data : List (List ℚ)) (h2 : 2 ≤ data.length)
    (hdim : ∀ u ∈ data, ∀ v ∈ data, u.length = v.length) :
    ∃ (i j : ℕ) (m : ℝ),
      find_most_similar_images data = .ok (some (((m : WithTop ℝ), some (i, j)), data)) ∧
      m = euclidean (data.getD i []) (data.getD j []) ∧
      (∀ a b : ℕ, a < b → b < data.length →
        euclidean (data.getD a []) (data.getD b []) = m → (a, b) ≠ (i, j) →
        i < a ∨ (i = a ∧ j < b)) := by
  obtain ⟨p, l₁, l₂, hfind, hsplit, hbefore, hafter⟩ := find_char data h2 hdim
  refine ⟨p.1, p.2, dEuclid data p, by rw [hfind], rfl, ?_⟩
  intro a b hab hbn heq hne
  have heq2 : dEuclid data (a, b) = dEuclid data p := heq
  have hqmem : (a, b) ∈ pairList data.length := (pairList_mem _ (a, b)).mpr ⟨hab, hbn⟩
  rw [hsplit] at hqmem
  rcases List.mem_append.mp hqmem with hq1 | hq2
  · exact absurd heq2 (ne_of_gt (hbefore _ hq1))
  · rcases List.mem_cons.mp hq2 with heqp | hq3
    · exact absurd heqp hne
    · have hpw := pairList_pairwise data.length
      rw [hsplit, List.pairwise_append] at hpw
      rcases (List.pairwise_cons.mp hpw.2.1).1 (a, b) hq3 with h1 | ⟨h1, h2x⟩
      · exact Or.inl h1
      · exact Or.inr ⟨h1, h2x⟩

theorem find_tiebreak_first_lex_witness :
    2 ≤ ([[2], [3]] : List (List ℚ)).length ∧
    (∀ u ∈ ([[2], [3]] : List (List ℚ)), ∀ v ∈ ([[2], [3]] : List (List ℚ)),
      u.length = v.length) ∧
    ∃ (i j : ℕ) (m : ℝ),
      find_most_similar_images [[2], [3]] =
        .ok (some (((m : WithTop ℝ), some (i, j)), [[2], [3]])) ∧
      m = euclidean (([[2], [3]] : List (List ℚ)).getD i [])
        (([[2], [3]] : List (List ℚ)).getD j []) ∧
      (∀ a b : ℕ, a < b → b < ([[2], [3]] : List (List ℚ)).length →
        euclidean (([[2], [3]] : List (List ℚ)).getD a [])
          (([[2], [3]] : List (List ℚ)).getD b []) = m → (a, b) ≠ (i, j) →
        i < a ∨ (i = a ∧ j < b)) :=
  ⟨by decide, by decide, find_tiebreak_first_lex [[2], [3]] (by decide) (by decide)⟩

/-- C10: whenever the finder returns a pair of indices `(i, j)` for a
collection of `N` items, the indices are distinct, ordered and in bounds:
`i < j < N`. -/
theorem find_pair_indices_in_bounds (data : List (List ℚ))
    (m : WithTop ℝ) (i j : ℕ) (rest : List (List ℚ))
    (h : find_most_similar_images data = .ok (some ((m, some (i, j)), rest))) :
    i < j ∧ j < data.length := by
  rw [find_most_similar_images] at h
  by_cases hlen : data.length < 2
  · rw [if_pos hlen] at h
    cases h
  · rw [if_neg hlen] at h
    cases hF : findWithM (fun a b => calculate_similarity (data.getD a []) (data.getD b []))
        data.length with
    | error msg =>
      rw [hF] at h
      cases h
    | ok acc =>
      rw [hF] at h
      have hacc : acc = (m, some (i, j)) := by
        have h2 : Except.ok (ε := String) (some (acc, data)) =
            .ok (some ((m, some (i, j)), rest)) := h
        have h3 := Option.some.inj (Except.ok.inj h2)
        exact (Prod.mk.injEq _ _ _ _ ▸ congrArg Prod.fst h3)
      rw [findWithM] at hF
      rcases foldlM_pair_mem _ (pairList data.length) (⊤, none) acc hF with hnone | ⟨p, hp, hps⟩
      · rw [hacc] at hnone
        cases hnone
      · rw [hacc] at hps
        have : p = (i, j) := Option.some.inj hps.symm
        rw [this] at hp
        exact (pairList_mem data.length (i, j)).mp hp

theorem find_pair_indices_in_bounds_witness :
    0 < 1 ∧ 1 < ([[(0 : ℚ)], [3]] : List (List ℚ)).length := by
  have h : find_most_similar_images [[(0 : ℚ)], [3]] =
      .ok (some (((dEuclid [[(0 : ℚ)], [3]] (0, 1) : ℝ), some (0, 1)), [[(0 : ℚ)], [3]])) := by
    rw [find_eq_foldl [[(0 : ℚ)], [3]] (by decide) (by decide),
      show pairList ([[(0 : ℚ)], [3]] : List (List ℚ)).length = [(0, 1)] from rfl,
      List.foldl_cons, List.foldl_nil, minStep, if_pos (WithTop.coe_lt_top _)]
  exact find_pair_indices_in_bounds _ _ _ _ _ h

/-- C4: comparing two vectors of different lengths yields the dimensionality
error (the modelled raised exception), and a collection containing such a pair
among its evaluated index pairs makes the whole finder fail with an error
rather than silently coercing or truncating the vectors. -/
theorem calculate_similarity_dim_error :
    (∀ u v : List ℚ, u.length ≠ v.length →
      calculate_similarity u v = .error "DimensionalityMismatch") ∧
    (∀ data : List (List ℚ), 2 ≤ data.length → ∀ i j : ℕ, i < j → j < data.length →
      (data.getD i []).length ≠ (data.getD j []).length →
      ∃ msg, find_most_similar_images data = .error msg) := by
  constructor
  · intro u v h
    rw [calculate_similarity, if_neg h]
  · intro data h2 i j hij hjn hlen
    have hmem : (i, j) ∈ pairList data.length := (pairList_mem _ (i, j)).mpr ⟨hij, hjn⟩
    obtain ⟨msg, hmsg⟩ := foldlM_error_of_error
      (fun a b => calculate_similarity (data.getD a []) (data.getD b []))
      (pairList data.length)
      ⟨(i, j), hmem, "DimensionalityMismatch", by
        show calculate_similarity (data.getD i []) (data.getD j []) =
          .error "DimensionalityMismatch"
        rw [calculate_similarity, if_neg hlen]⟩
      (⊤, none)
    refine ⟨msg, ?_⟩
    rw [find_most_similar_images, if_neg (by omega), findWithM, hmsg]
    rfl

theorem calculate_similarity_dim_error_witness :
    (([1, 2] : List ℚ).length ≠ ([1, 2, 3] : List ℚ).length ∧
      calculate_similarity [1, 2] [1, 2, 3] = .error "DimensionalityMismatch") ∧
    (2 ≤ ([[1, 2], [1, 2, 3]] : List (List ℚ)).length ∧
      ∃ msg, find_most_similar_images [[1, 2], [1, 2, 3]] = .error msg) :=
  ⟨⟨by decide, calculate_similarity_dim_error.1 [1, 2] [1, 2, 3] (by decide)⟩,
    ⟨by decide, calculate_similarity_dim_error.2 [[1, 2], [1, 2, 3]] (by decide) 0 1
      (by decide) (by decide) (by decide)⟩⟩

theorem except_map_ok {α β : Type} (v : α) (f : α → β) :
    (Except.ok v : Except String α).map f = .ok (f v) := rfl

theorem except_map_error {α β : Type} (msg : String) (f : α → β) :
    (Except.error msg : Except String α).map f = .error msg := rfl

/-- The rational sum of squared differences, cast to `ℝ`, is the textbook
sum over the coordinate indices. -/
theorem sqDist_cast (u : List ℚ) : ∀ v : List ℚ, u.length = v.length →
    ((sqDist u v : ℚ) : ℝ) =
      ∑ k ∈ Finset.range u.length,
        (((u.getD k 0 : ℚ) : ℝ) - ((v.getD k 0 : ℚ) : ℝ)) ^ 2 := by
  induction u with
  | nil =>
    intro v h
    simp [sqDist]
  | cons x u ih =>
    intro v h
    cases v with
    | nil => simp at h
    | cons y v =>
      have hl : u.length = v.length := by simpa using h
      have hcons : sqDist (x :: u) (y :: v) = (x - y) ^ 2 + sqDist u v := by
        simp [sqDist]
      rw [hcons, show (x :: u).length = u.length + 1 from rfl, Finset.sum_range_succ']
      simp only [List.getD_cons_succ, List.getD_cons_zero]
      push_cast
      rw [ih v hl]
      ring

/-- C5: for equal-dimensionality vectors, `calculate_similarity` returns
exactly the Euclidean distance `sqrt(sum over k of (a_k - b_k)^2)`. -/
theorem calculate_similarity_is_euclidean (u v : List ℚ) (h : u.length = v.length) :
    calculate_similarity u v =
      .ok (Real.sqrt (∑ k ∈ Finset.range u.length,
        (((u.getD k 0 : ℚ) : ℝ) - ((v.getD k 0 : ℚ) : ℝ)) ^ 2)) := by
  rw [calculate_similarity, if_pos h, euclidean, sqDist_cast u v h]

theorem calculate_similarity_is_euclidean_witness :
    ([1, 2] : List ℚ).length = ([3, 5] : List ℚ).length ∧
    calculate_similarity [1, 2] [3, 5] =
      .ok (Real.sqrt (∑ k ∈ Finset.range ([1, 2] : List ℚ).length,
        (((([1, 2] : List ℚ).getD k 0 : ℚ) : ℝ) -
          ((([3, 5] : List ℚ).getD k 0 : ℚ) : ℝ)) ^ 2)) :=
  ⟨rfl, calculate_similarity_is_euclidean [1, 2] [3, 5] rfl⟩

/-- C6: the distance is symmetric, `calculate_similarity u v` equals
`calculate_similarity v u` (also in the error case), and consequently the
finder loop computes the same result when every pair is evaluated with its
two vectors swapped. -/
theorem calculate_similarity_symm :
    (∀ u v : List ℚ, calculate_similarity u v = calculate_similarity v u) ∧
    (∀ data : List (List ℚ), ∀ n : ℕ,
      findWithM (fun i j => calculate_similarity (data.getD j []) (data.getD i [])) n =
      findWithM (fun i j => calculate_similarity (data.getD i []) (data.getD j [])) n) := by
  have hq : ∀ u v : List ℚ, sqDist u v = sqDist v u := by
    intro u v
    rw [sqDist, sqDist, List.zipWith_comm_of_comm _ (fun x y => by ring) u v]
  have hsym : ∀ u v : List ℚ, calculate_similarity u v = calculate_similarity v u := by
    intro u v
    by_cases h : u.length = v.length
    · rw [calculate_similarity, if_pos h, calculate_similarity, if_pos h.symm,
        euclidean, euclidean, hq u v]
    · rw [calculate_similarity, if_neg h, calculate_similarity,
        if_neg (fun hh => h hh.symm)]
  refine ⟨hsym, fun data n => ?_⟩
  have harg : (fun i j => calculate_similarity (data.getD j []) (data.getD i [])) =
      fun i j => calculate_similarity (data.getD i []) (data.getD j []) := by
    funext i j
    exact hsym _ _
  rw [harg]

/-- C7: the finder is deterministic; two runs on the same collection, in the
same order, return the identical outcome (pair and distance). -/
theorem find_deterministic (data1 data2 : List (List ℚ)) (h : data1 = data2) :
    find_most_similar_images data1 = find_most_similar_images data2 := by
  rw [h]

theorem find_deterministic_witness :
    ([[1, 2]] : List (List ℚ)) = [[1, 2]] ∧
      find_most_similar_images [[1, 2]] = find_most_similar_images [[1, 2]] :=
  ⟨rfl, find_deterministic [[1, 2]] [[1, 2]] rfl⟩

/-- C8: the computation is pure and leaves its input unchanged: running the
loop on the full local state (accumulator together with the `hog_data` list)
returns exactly the pure loop result paired with the untouched input list. -/
theorem find_loop_no_side_effects (data : List (List ℚ)) :
    findLoopSt data =
      (findWithM (fun i j => calculate_similarity (data.getD i []) (data.getD j []))
        data.length).map fun acc => (acc, data) := by
  rw [findLoopSt, findWithM]
  suffices h : ∀ (l : List (ℕ × ℕ)) (acc : WithTop ℝ × Option (ℕ × ℕ)),
      l.foldlM similarityStepSt (acc, data) =
        (l.foldlM
          (similarityStep fun i j => calculate_similarity (data.getD i []) (data.getD j []))
          acc).map fun acc2 => (acc2, data) from h _ _
  intro l
  induction l with
  | nil => intro acc; rfl
  | cons a l ih =>
    intro acc
    rw [List.foldlM_cons, List.foldlM_cons]
    cases hda : calculate_similarity (data.getD a.1 []) (data.getD a.2 []) with
    | error msg =>
      have hst : similarityStepSt (acc, data) a = .error msg := by
        unfold similarityStepSt
        rw [show ((acc, data) : (WithTop ℝ × Option (ℕ × ℕ)) × List (List ℚ)).2 = data
          from rfl, hda]
        rfl
      rw [hst, except_bind_error,
        similarityStep_error (fun i j => calculate_similarity (data.getD i []) (data.getD j []))
          acc a msg hda,
        except_bind_error, except_map_error]
    | ok s =>
      have hst : similarityStepSt (acc, data) a =
          .ok (if (s : WithTop ℝ) < acc.1 then (((s : WithTop ℝ), some a), data)
            else (acc, data)) := by
        unfold similarityStepSt
        rw [show ((acc, data) : (WithTop ℝ × Option (ℕ × ℕ)) × List (List ℚ)).2 = data
          from rfl, hda]
        rfl
      rw [hst, except_bind_ok,
        similarityStep_ok (fun i j => calculate_similarity (data.getD i []) (data.getD j []))
          acc a s hda,
        except_bind_ok]
      by_cases hc : (s : WithTop ℝ) < acc.1
      · rw [if_pos hc, if_pos hc]
        exact ih _
      · rw [if_neg hc, if_neg hc]
        exact ih _

/-- C9: on the worked example A = [0,0], B = [3,4], C = [1,1] the pairwise
distances are A-B = 5, A-C = sqrt 2 and B-C = sqrt 13, and the finder returns
the pair (A, C), i.e. indices (0, 2), with minimum distance sqrt 2. -/
theorem find_example_abc :
    euclidean [0, 0] [3, 4] = 5 ∧
    euclidean [0, 0] [1, 1] = Real.sqrt 2 ∧
    euclidean [3, 4] [1, 1] = Real.sqrt 13 ∧
    find_most_similar_images [[0, 0], [3, 4], [1, 1]] =
      .ok (some ((((Real.sqrt 2 : ℝ) : WithTop ℝ), some (0, 2)), [[0, 0], [3, 4], [1, 1]])) := by
  have q1 : sqDist [0, 0] [3, 4] = 25 := by norm_num [sqDist]
  have q2 : sqDist [0, 0] [1, 1] = 2 := by norm_num [sqDist]
  have q3 : sqDist [3, 4] [1, 1] = 13 := by norm_num [sqDist]
  have e1 : euclidean [0, 0] [3, 4] = 5 := by
    rw [euclidean, q1, show ((25 : ℚ) : ℝ) = 5 ^ 2 by norm_num,
      Real.sqrt_sq (by norm_num)]
  have e2 : euclidean [0, 0] [1, 1] = Real.sqrt 2 := by
    rw [euclidean, q2, show ((2 : ℚ) : ℝ) = 2 by norm_num]
  have e3 : euclidean [3, 4] [1, 1] = Real.sqrt 13 := by
    rw [euclidean, q3, show ((13 : ℚ) : ℝ) = 13 by norm_num]
  refine ⟨e1, e2, e3, ?_⟩
  have hd01 : dEuclid [[0, 0], [3, 4], [1, 1]] (0, 1) = 5 := e1
  have hd02 : dEuclid [[0, 0], [3, 4], [1, 1]] (0, 2) = Real.sqrt 2 := e2
  have hd12 : dEuclid [[0, 0], [3, 4], [1, 1]] (1, 2) = Real.sqrt 13 := e3
  have hs2lt5 : Real.sqrt 2 < 5 :=
    (Real.sqrt_lt' (by norm_num)).mpr (by norm_num)
  have hs2le13 : Real.sqrt 2 ≤ Real.sqrt 13 := Real.sqrt_le_sqrt (by norm_num)
  have s1 : minStep (dEuclid [[0, 0], [3, 4], [1, 1]]) (⊤, none) (0, 1) =
      (((5 : ℝ) : WithTop ℝ), some (0, 1)) := by
    rw [minStep, if_pos (WithTop.coe_lt_top _), hd01]
  have s2 : minStep (dEuclid [[0, 0], [3, 4], [1, 1]])
      (((5 : ℝ) : WithTop ℝ), some (0, 1)) (0, 2) =
      (((Real.sqrt 2 : ℝ) : WithTop ℝ), some (0, 2)) := by
    rw [minStep, hd02, if_pos (WithTop.coe_lt_coe.mpr hs2lt5)]
  have s3 : minStep (dEuclid [[0, 0], [3, 4], [1, 1]])
      (((Real.sqrt 2 : ℝ) : WithTop ℝ), some (0, 2)) (1, 2) =
      (((Real.sqrt 2 : ℝ) : WithTop ℝ), some (0, 2)) := by
    rw [minStep, hd12,
      if_neg (fun hc => absurd (WithTop.coe_lt_coe.mp hc) (not_lt.mpr hs2le13))]
  rw [find_eq_foldl [[0, 0], [3, 4], [1, 1]] (by decide) (by decide),
    show pairList ([[0, 0], [3, 4], [1, 1]] : List (List ℚ)).length =
      [(0, 1), (0, 2), (1, 2)] from rfl,
    List.foldl_cons, List.foldl_cons, List.foldl_cons, List.foldl_nil, s1, s2, s3]
